import Mathlib

/-!
Shallow embedding of the adaptive MIMO equalizer of
src/jupyter notebooks/Adaptive equalization.py
(functions mimoAdaptEqualizer, coreAdaptEq, nlmsUp, ddlmsUp, cmaUp, rdeUp).

Complex floating-point arithmetic is idealized as exact complex arithmetic
over the rationals (Cq below).  numpy 2-D arrays are embedded as lists of
row lists, 3-D arrays as lists of matrix slices along the last axis; reads
use getD with default 0 and writes use List.set (out-of-range writes are
modeled as no-ops: the source runs under numba jit(nopython=True), which
performs no bounds checking).
-/

namespace Opticomm

/-- Complex numbers with rational components: the exact-arithmetic model of
the numpy complex values used by the equalizer. -/
structure Cq where
  re : ℚ
  im : ℚ
deriving DecidableEq, Repr

namespace Cq

@[ext] theorem ext {z w : Cq} (hre : z.re = w.re) (him : z.im = w.im) : z = w := by
  cases z; cases w; simp_all

instance : Zero Cq := ⟨⟨0, 0⟩⟩
instance : One Cq := ⟨⟨1, 0⟩⟩
instance : Add Cq := ⟨fun z w => ⟨z.re + w.re, z.im + w.im⟩⟩
instance : Neg Cq := ⟨fun z => ⟨-z.re, -z.im⟩⟩
instance : Sub Cq := ⟨fun z w => ⟨z.re - w.re, z.im - w.im⟩⟩
instance : Mul Cq := ⟨fun z w => ⟨z.re * w.re - z.im * w.im, z.re * w.im + z.im * w.re⟩⟩

@[simp] theorem zero_re : (0 : Cq).re = 0 := rfl
@[simp] theorem zero_im : (0 : Cq).im = 0 := rfl
@[simp] theorem one_re : (1 : Cq).re = 1 := rfl
@[simp] theorem one_im : (1 : Cq).im = 0 := rfl
@[simp] theorem add_re (z w : Cq) : (z + w).re = z.re + w.re := rfl
@[simp] theorem add_im (z w : Cq) : (z + w).im = z.im + w.im := rfl
@[simp] theorem neg_re (z : Cq) : (-z).re = -z.re := rfl
@[simp] theorem neg_im (z : Cq) : (-z).im = -z.im := rfl
@[simp] theorem sub_re (z w : Cq) : (z - w).re = z.re - w.re := rfl
@[simp] theorem sub_im (z w : Cq) : (z - w).im = z.im - w.im := rfl
@[simp] theorem mul_re (z w : Cq) : (z * w).re = z.re * w.re - z.im * w.im := rfl
@[simp] theorem mul_im (z w : Cq) : (z * w).im = z.re * w.im + z.im * w.re := rfl

instance : CommRing Cq where
  add_assoc := by intros; ext <;> simp <;> ring
  zero_add := by intros; ext <;> simp
  add_zero := by intros; ext <;> simp
  add_comm := by intros; ext <;> simp <;> ring
  left_distrib := by intros; ext <;> simp <;> ring
  right_distrib := by intros; ext <;> simp <;> ring
  zero_mul := by intros; ext <;> simp
  mul_zero := by intros; ext <;> simp
  mul_assoc := by intros; ext <;> simp <;> ring
  one_mul := by intros; ext <;> simp
  mul_one := by intros; ext <;> simp
  mul_comm := by intros; ext <;> simp <;> ring
  neg_add_cancel := by intros; ext <;> simp
  sub_eq_add_neg := by intros; ext <;> simp <;> ring
  nsmul := fun n z => ⟨n * z.re, n * z.im⟩
  nsmul_zero := by intros; ext <;> simp
  nsmul_succ := by intros; ext <;> simp <;> ring
  zsmul := fun n z => ⟨n * z.re, n * z.im⟩
  zsmul_zero' := by intros; ext <;> simp
  zsmul_succ' := by intros; ext <;> push_cast <;> simp <;> ring
  zsmul_neg' := by intros; ext <;> push_cast <;> simp <;> ring

/-- Complex conjugate (np.conj). -/
def conj (z : Cq) : Cq := ⟨z.re, -z.im⟩

/-- Squared modulus (np.abs(z)**2), a real (rational) value. -/
def normSq (z : Cq) : ℚ := z.re * z.re + z.im * z.im

/-- Embedding of a real scalar into Cq. -/
def C (q : ℚ) : Cq := ⟨q, 0⟩

/-- Division of a complex value by a real scalar (used by the NLMS
normalization).  Division by zero yields zero, the Lean total-division
convention standing in for the undefined (NaN) float result. -/
def divq (z : Cq) (q : ℚ) : Cq := ⟨z.re / q, z.im / q⟩

@[simp] theorem conj_re (z : Cq) : (conj z).re = z.re := rfl
@[simp] theorem conj_im (z : Cq) : (conj z).im = -z.im := rfl
@[simp] theorem C_re (q : ℚ) : (C q).re = q := rfl
@[simp] theorem C_im (q : ℚ) : (C q).im = 0 := rfl

theorem conj_divq (z : Cq) (q : ℚ) : conj (divq z q) = divq (conj z) q := by
  ext <;> simp [conj, divq, neg_div]

end Cq

open Cq

/-- Row vectors of complex samples. -/
abbrev Vec := List Cq

/-- Matrices as lists of rows. -/
abbrev Mat := List Vec

/-- Element read of a vector (out of range reads give 0, matching a read
that never happens on well-shaped data). -/
def vget (v : Vec) (i : ℕ) : Cq := v.getD i 0

/-- Element read of a matrix. -/
def mget (A : Mat) (i j : ℕ) : Cq := vget (A.getD i []) j

/-- Sum of f over the index range 0..n-1 (a numpy reduction). -/
def rsum (n : ℕ) (f : ℕ → Cq) : Cq := ((List.range n).map f).sum

/-- Sum of a rational-valued f over 0..n-1. -/
def rsumQ (n : ℕ) (f : ℕ → ℚ) : ℚ := ((List.range n).map f).sum

/-- Matrix product with explicit dimensions (rows m, inner k, cols n):
entry (i,j) of A @ B. -/
def mmul (m k n : ℕ) (A B : Mat) : Mat :=
  (List.range m).map (fun i => (List.range n).map (fun j => rsum k (fun t => mget A i t * mget B t j)))

/-- np.diag of a vector. -/
def diagM (v : Vec) : Mat :=
  (List.range v.length).map (fun i => (List.range v.length).map (fun j => if i = j then vget v i else 0))

/-- np.conj of a matrix. -/
def conjM (A : Mat) : Mat := A.map (fun r => r.map conj)

/-- numpy transpose of a rectangular 2-D array. -/
def transposeM (A : Mat) : Mat :=
  (List.range (A.headD []).length).map (fun j => A.map (fun r => vget r j))

/-- np.argmin over the values f 0, ..., f (n-1): index of the first
occurrence of the minimum. -/
def argminL (f : ℕ → ℚ) (n : ℕ) : ℕ :=
  (List.range n).foldl (fun best i => if f i < f best then i else best) 0

/-- Mean of a list of rationals (np.mean). -/
def meanQ (l : List ℚ) : ℚ := l.sum / l.length

/-- Insert q into a sorted duplicate-free ascending list, keeping it so. -/
def sortInsert (q : ℚ) : List ℚ → List ℚ
  | [] => [q]
  | a :: rest => if q < a then q :: a :: rest else if q = a then a :: rest else a :: sortInsert q rest

/-- Ascending sorted list of the distinct values of l (np.unique). -/
def sortedUniq (l : List ℚ) : List ℚ := l.foldr sortInsert []

/-- Decides d + 2*sqrt u < 2*sqrt v for rationals u, v >= 0, using only
rational arithmetic (sign analysis plus squaring). -/
def ltAddSqrt (d u v : ℚ) : Bool :=
  if d < 0 && 4*u < d^2 then true
  else
    let w := 4*v - d^2 - 4*u
    if 0 ≤ d then decide (0 < w ∧ 16*d^2*u < w^2)
    else decide (0 < w ∨ (w ≤ 0 ∧ w^2 < 16*d^2*u))

/-- Decides |sqrt a - sqrt t| < |sqrt b - sqrt t| given a, b, t >= 0:
exact comparison of the distances of two constellation radii (given by
their squares a, b) to a signal modulus (given by its square t).  Squaring
both distances, the inequality is a - b + 2*sqrt(b*t) < 2*sqrt(a*t). -/
def sqrtDistLt (a b t : ℚ) : Bool := ltAddSqrt (a - b) (b*t) (a*t)

section ListLemmas

variable {α : Type _}

theorem getD_set_self (l : List α) (i : ℕ) (v d : α) (h : i < l.length) :
    (l.set i v).getD i d = v := by
  induction l generalizing i with
  | nil => simp at h
  | cons a rest ih =>
    cases i with
    | zero => rfl
    | succ n => simpa using ih n (by simpa using h)

theorem getD_set_ne (l : List α) (i j : ℕ) (v d : α) (h : i ≠ j) :
    (l.set i v).getD j d = l.getD j d := by
  induction l generalizing i j with
  | nil => simp
  | cons a rest ih =>
    cases i with
    | zero =>
      cases j with
      | zero => exact absurd rfl h
      | succ m => rfl
    | succ n =>
      cases j with
      | zero => rfl
      | succ m => simpa using ih n m (by omega)

theorem getD_map_range {β : Type _} (f : ℕ → β) (n k : ℕ) (d : β) (h : k < n) :
    (((List.range n).map f).getD k d) = f k := by
  rw [List.getD_eq_getElem?_getD, List.getElem?_map, List.getElem?_range h]
  rfl

theorem getD_map_range_ge {β : Type _} (f : ℕ → β) (n k : ℕ) (d : β) (h : n ≤ k) :
    (((List.range n).map f).getD k d) = d := by
  rw [List.getD_eq_getElem?_getD, List.getElem?_map,
    List.getElem?_eq_none (by simpa using h)]
  rfl

theorem getD_replicate (a d : α) (n k : ℕ) (h : k < n) :
    ((List.replicate n a).getD k d) = a := by
  rw [List.getD_eq_getElem?_getD, List.getElem?_replicate, if_pos h]
  rfl

theorem getD_append_left (l l' : List α) (k : ℕ) (d : α) (h : k < l.length) :
    ((l ++ l').getD k d) = l.getD k d := by
  rw [List.getD_eq_getElem?_getD, List.getElem?_append, if_pos h, List.getD_eq_getElem?_getD]

theorem getD_append_right (l l' : List α) (k : ℕ) (d : α) (h : l.length ≤ k) :
    ((l ++ l').getD k d) = l'.getD (k - l.length) d := by
  rw [List.getD_eq_getElem?_getD, List.getElem?_append_right h, List.getD_eq_getElem?_getD]

theorem getD_zipWith {β γ : Type _} (f : α → β → γ) (as : List α) (bs : List β)
    (k : ℕ) (da : α) (db : β) (dc : γ) (ha : k < as.length) (hb : k < bs.length) :
    ((List.zipWith f as bs).getD k dc) = f (as.getD k da) (bs.getD k db) := by
  induction as generalizing bs k with
  | nil => simp at ha
  | cons a rest ih =>
    cases bs with
    | nil => simp at hb
    | cons b brest =>
      cases k with
      | zero => rfl
      | succ n => simpa using ih brest n (by simpa using ha) (by simpa using hb)

theorem rsum_zero (f : ℕ → Cq) : rsum 0 f = 0 := rfl

theorem rsum_succ (n : ℕ) (f : ℕ → Cq) : rsum (n + 1) f = rsum n f + f n := by
  simp [rsum, List.range_succ]

theorem rsumQ_zero (f : ℕ → ℚ) : rsumQ 0 f = 0 := rfl

theorem rsumQ_succ (n : ℕ) (f : ℕ → ℚ) : rsumQ (n + 1) f = rsumQ n f + f n := by
  simp [rsumQ, List.range_succ]

theorem rsum_congr (n : ℕ) (f g : ℕ → Cq) (h : ∀ k, k < n → f k = g k) :
    rsum n f = rsum n g := by
  induction n with
  | zero => rfl
  | succ m ih =>
    rw [rsum_succ, rsum_succ, ih (fun k hk => h k (Nat.lt_succ_of_lt hk)), h m m.lt_succ_self]

theorem rsum_const_zero (n : ℕ) : rsum n (fun _ => (0 : Cq)) = 0 := by
  induction n with
  | zero => rfl
  | succ i ihz => rw [rsum_succ, ihz, add_zero]

/-- Collapsing a sum against a Kronecker delta in the left factor. -/
theorem rsum_ite_mul (n j : ℕ) (a : Cq) (g : ℕ → Cq) (hj : j < n) :
    rsum n (fun k => (if j = k then a else 0) * g k) = a * g j := by
  induction n with
  | zero => omega
  | succ m ih =>
    rw [rsum_succ]
    rcases Nat.lt_or_ge j m with hlt | hge
    · rw [ih hlt, if_neg (by omega), zero_mul, add_zero]
    · have hjm : j = m := by omega
      subst hjm
      rw [if_pos rfl]
      have hc : rsum j (fun k => (if j = k then a else 0) * g k) = rsum j (fun _ => 0) := by
        refine rsum_congr _ _ _ (fun k hk => ?_)
        rw [if_neg (by omega), zero_mul]
      rw [hc, rsum_const_zero, zero_add]

end ListLemmas

/-- Expansion of a tap-length vector into an (nModes, nTaps) matrix whose
rows all equal the vector: inAdapt.repeat(nModes).reshape(len(x), -1).T
in the source (repeat fills each row of the reshape with one entry). -/
def inAdaptParM (nModes : ℕ) (inAdapt : Vec) : Mat :=
  transposeM (inAdapt.map (List.replicate nModes))

/-- The vectorized row-block assignment
H[indMode + N*nModes, :] = H[indMode + N*nModes, :] + mu*upd
shared by all four update rules. -/
def updRows (A : Mat) (N nModes : ℕ) (mu : ℚ) (upd : Mat) : Mat :=
  (List.range nModes).foldl
    (fun B j => B.set (j + N*nModes)
      (List.zipWith (fun h u => h + C mu * u) (B.getD (j + N*nModes) []) (upd.getD j []))) A

/-- nlmsUp: coefficient update with the NLMS algorithm.  x is the
(nTaps, nModes) input window slice, dx the reference row at the current
output index, outEq the current output column. -/
def nlmsUp (x : Mat) (dx : Vec) (outEq : Vec) (mu : ℚ) (H : Mat) (nModes : ℕ) :
    Mat × List ℚ :=
  let err := (List.range nModes).map (fun j => vget dx j - vget outEq j)
  let errDiag := diagM err
  let H' := (List.range nModes).foldl (fun A N =>
    let inAdapt := (List.range x.length).map
      (fun t => divq (mget x t N) (rsumQ x.length (fun s => normSq (mget x s N))))
    updRows A N nModes mu (mmul nModes nModes x.length errDiag (conjM (inAdaptParM nModes inAdapt)))) H
  (H', err.map normSq)

/-- The DDLMS hard decision: constSymb[np.argmin(np.abs(z - constSymb))].
Moduli are compared through their squares, which preserves both the
ordering and numpy's first-minimum tie-breaking. -/
def ddlmsDecide (constSymb : Vec) (z : Cq) : Cq :=
  vget constSymb (argminL (fun i => normSq (z - vget constSymb i)) constSymb.length)

/-- The RDE radius decision: R[np.argmin(np.abs(R - np.abs(z)))]**2,
returned directly as the squared radius.  R2 lists the squared radii and
t is the squared modulus of z; sqrtDistLt compares the true
radius-to-modulus distances exactly, keeping the first-minimum
tie-breaking of np.argmin. -/
def rdeSel (R2 : List ℚ) (t : ℚ) : ℚ :=
  R2.getD ((List.range R2.length).foldl
    (fun best i => if sqrtDistLt (R2.getD i 0) (R2.getD best 0) t then i else best) 0) 0

/-- ddlmsUp: coefficient update with the DDLMS algorithm. -/
def ddlmsUp (x : Mat) (constSymb : Vec) (outEq : Vec) (mu : ℚ) (H : Mat) (nModes : ℕ) :
    Mat × List ℚ :=
  let decided := (List.range nModes).map (fun k => ddlmsDecide constSymb (vget outEq k))
  let err := (List.range nModes).map (fun k => vget decided k - vget outEq k)
  let errDiag := diagM err
  let H' := (List.range nModes).foldl (fun A N =>
    let inAdapt := (List.range x.length).map (fun t => mget x t N)
    updRows A N nModes mu (mmul nModes nModes x.length errDiag (conjM (inAdaptParM nModes inAdapt)))) H
  (H', err.map normSq)

/-- cmaUp: coefficient update with the CMA algorithm.  R is the scalar
value filling the (1, nModes) radius array built in coreAdaptEq. -/
def cmaUp (x : Mat) (R : ℚ) (outEq : Vec) (mu : ℚ) (H : Mat) (nModes : ℕ) :
    Mat × List ℚ :=
  let err := (List.range nModes).map (fun j => C R - C (normSq (vget outEq j)))
  let prodErrOut := mmul nModes nModes nModes (diagM err)
    (diagM ((List.range nModes).map (fun j => vget outEq j)))
  let H' := (List.range nModes).foldl (fun A N =>
    let inAdapt := (List.range x.length).map (fun t => mget x t N)
    updRows A N nModes mu (mmul nModes nModes x.length prodErrOut (conjM (inAdaptParM nModes inAdapt)))) H
  (H', err.map normSq)

/-- rdeUp: coefficient update with the RDE algorithm.  R2 lists the
unique constellation radii represented by their squares (radius values
are irrational square roots; their squares are rational, and
sqrtDistLt compares radius-to-modulus distances exactly).  decidedR**2
in the source is then exactly the selected entry of R2. -/
def rdeUp (x : Mat) (R2 : List ℚ) (outEq : Vec) (mu : ℚ) (H : Mat) (nModes : ℕ) :
    Mat × List ℚ :=
  let decR2 := (List.range nModes).map (fun k => rdeSel R2 (normSq (vget outEq k)))
  let err := (List.range nModes).map (fun k => C (decR2.getD k 0) - C (normSq (vget outEq k)))
  let prodErrOut := mmul nModes nModes nModes (diagM err)
    (diagM ((List.range nModes).map (fun j => vget outEq j)))
  let H' := (List.range nModes).foldl (fun A N =>
    let inAdapt := (List.range x.length).map (fun t => mget x t N)
    updRows A N nModes mu (mmul nModes nModes x.length prodErrOut (conjM (inAdaptParM nModes inAdapt)))) H
  (H', err.map normSq)

/-- The adaptation-rule tag (paramEq.alg strings of the source). -/
inductive Alg
  | nlms
  | cma
  | ddlms
  | rde
deriving DecidableEq, Repr

/-- Rcma of coreAdaptEq: np.mean(np.abs(constSymb)**4)/np.mean(np.abs(constSymb)**2)
(a real scalar; the source fills a (1, nModes) complex array with it). -/
def RcmaOf (constSymb : Vec) : ℚ :=
  meanQ (constSymb.map (fun c => normSq c * normSq c)) / meanQ (constSymb.map normSq)

/-- Rrde of coreAdaptEq: np.unique(np.abs(constSymb)), represented by the
squares of the radii (unique and ascending order are preserved by
squaring nonnegative values). -/
def RrdeOf (constSymb : Vec) : List ℚ := sortedUniq (constSymb.map normSq)

/-- The loop-carried state of coreAdaptEq.  Hiter is the 3-D history
array represented as its list of (nModes^2, nTaps) slices along the last
axis; errRows collects the errSq[:, ind] column writes in step order. -/
structure CoreSt where
  H : Mat
  yEq : Mat
  errRows : List (List ℚ)
  Hiter : List Mat
deriving DecidableEq, Repr

/-- The dispatch on the training algorithm tag inside the coreAdaptEq loop. -/
def algUpdate (alg : Alg) (xw : Mat) (dxRow : Vec) (outEq : Vec) (mu : ℚ) (H : Mat)
    (nModes : ℕ) (Rc : ℚ) (R2 : List ℚ) (constSymb : Vec) : Mat × List ℚ :=
  match alg with
  | Alg.nlms => nlmsUp xw dxRow outEq mu H nModes
  | Alg.cma => cmaUp xw Rc outEq mu H nModes
  | Alg.ddlms => ddlmsUp xw constSymb outEq mu H nModes
  | Alg.rde => rdeUp xw R2 outEq mu H nModes

/-- The slice index of the Hiter write performed after each update:
Hiter[:, :, ind] = H when storeCoeff, else Hiter[:, :, 1] = H. -/
def hiterWriteIdx (storeCoeff : Bool) (ind : ℕ) : ℕ := if storeCoeff then ind else 1

/-- The third-axis size of the allocated Hiter array. -/
def hiterDepth (storeCoeff : Bool) (L : ℕ) : ℕ := if storeCoeff then L else 1

/-- One iteration of the coreAdaptEq training loop at output index ind. -/
def eqStep (x dx : Mat) (SpS : ℕ) (mu : ℚ) (nTaps nModes : ℕ) (storeCoeff : Bool)
    (alg : Alg) (Rc : ℚ) (R2 : List ℚ) (constSymb : Vec) (st : CoreSt) (ind : ℕ) : CoreSt :=
  let xw := (List.range nTaps).map (fun t => (List.range nModes).map (fun N => mget x (ind*SpS + t) N))
  let outEq := (List.range nModes).foldl (fun acc N =>
      List.zipWith (fun a b => a + b) acc
        ((List.range nModes).map (fun j => rsum nTaps (fun t => mget st.H (j + N*nModes) t * mget xw t N))))
    (List.replicate nModes (0 : Cq))
  let yEq' := st.yEq.set ind outEq
  let upd := algUpdate alg xw (dx.getD ind []) outEq mu st.H nModes Rc R2 constSymb
  let Hiter' := st.Hiter.set (hiterWriteIdx storeCoeff ind) upd.1
  ⟨upd.1, yEq', st.errRows ++ [upd.2], Hiter'⟩

/-- The pre-loop allocations of coreAdaptEq.  yEq = x[0:L].copy() set to
NaN (NaN has no rational stand-in; 0 is used, and every row below L is
overwritten by the loop); Hiter is allocated with L slices when
storeCoeff else one slice, all zero. -/
def coreInit (x : Mat) (H : Mat) (L nModes nTaps : ℕ) (storeCoeff : Bool) : CoreSt :=
  { H := H
    yEq := (x.take L).map (fun r => r.map (fun _ => (0 : Cq)))
    errRows := []
    Hiter := List.replicate (hiterDepth storeCoeff L)
      (List.replicate (nModes^2) (List.replicate nTaps (0 : Cq))) }

/-- The state after the first k iterations of the coreAdaptEq loop. -/
def coreRun (x dx : Mat) (SpS : ℕ) (mu : ℚ) (nTaps nModes : ℕ) (storeCoeff : Bool)
    (alg : Alg) (constSymb : Vec) (H : Mat) (L k : ℕ) : CoreSt :=
  (List.range k).foldl
    (eqStep x dx SpS mu nTaps nModes storeCoeff alg (RcmaOf constSymb) (RrdeOf constSymb) constSymb)
    (coreInit x H L nModes nTaps storeCoeff)

/-- Reassembles the (nModes, L) errSq array from the per-step column writes. -/
def errSqOf (nModes : ℕ) (rows : List (List ℚ)) : List (List ℚ) :=
  (List.range nModes).map (fun m => rows.map (fun r => r.getD m 0))

/-- coreAdaptEq: adaptive equalizer core processing function
(argument order as in the source). -/
def coreAdaptEq (x dx : Mat) (SpS : ℕ) (H : Mat) (L : ℕ) (mu : ℚ) (nTaps : ℕ)
    (storeCoeff : Bool) (alg : Alg) (constSymb : Vec) :
    Mat × Mat × List (List ℚ) × List Mat :=
  let nModes := (x.headD []).length
  let st := coreRun x dx SpS mu nTaps nModes storeCoeff alg constSymb H L L
  (st.yEq, st.H, errSqOf nModes st.errRows, st.Hiter)

/-- np.fix: rounding toward zero. -/
def fixQ (q : ℚ) : ℤ := if 0 ≤ q then ⌊q⌋ else ⌈q⌉

/-- The default output length of the driver:
int(np.fix((len(x) - nTaps)/SpS + 1)) computed on the padded signal. -/
def driverLdflt (padLen nTaps SpS : ℕ) : ℕ :=
  (fixQ (((padLen : ℚ) - (nTaps : ℚ)) / (SpS : ℚ) + 1)).toNat

/-- The driver's orientation normalization: transpose when the array has
more columns than rows (signals are stored one column per mode). -/
def orient (A : Mat) : Mat :=
  if A.length < (A.headD []).length then transposeM A else A

/-- The zero padding of the (oriented) input signal:
np.concatenate((zeroPad, x, zeroPad)) with Lpad all-zero rows. -/
def padSig (x1 : Mat) (nModes Lpad : ℕ) : Mat :=
  List.replicate Lpad (List.replicate nModes (0 : Cq)) ++ x1
    ++ List.replicate Lpad (List.replicate nModes (0 : Cq))

/-- The central-spike tap initialization of mimoAdaptEqualizer:
H[m + m*nModes, floor(nTaps/2)] = 1 on an all-zero (nModes^2, nTaps)
array. -/
def initH (nModes nTaps : ℕ) : Mat :=
  (List.range nModes).foldl
    (fun A m => A.set (m + m*nModes) ((A.getD (m + m*nModes) []).set (nTaps/2) 1))
    (List.replicate (nModes^2) (List.replicate nTaps (0 : Cq)))

/-- The paramEq configuration bundle of mimoAdaptEqualizer, with the
getattr defaults of the source.  constSymb carries the normalized
constellation mod.constellation/np.sqrt(mod.Es): the QAMModem object is
built by the external commpy library from the modulation order M, so the
resulting point set is supplied here as data. -/
structure ParamEq where
  numIter : ℕ := 1
  nTaps : ℕ := 15
  mu : ℚ := 1/1000
  SpS : ℕ := 2
  H : Mat := []
  L : List ℕ := []
  storeCoeff : Bool := false
  alg : Alg := Alg.nlms
  constSymb : Vec := []

/-- mimoAdaptEqualizer: N-by-N MIMO adaptive equalizer driver.  Empty dx
defaults to x; x and dx are oriented; the signal is zero-padded by
floor(nTaps/2) rows at both ends; L and H get their defaults when absent;
numIter passes of coreAdaptEq are run carrying the tap matrix forward.
The tuple is (yEq, H, errSq, Hiter) from the last pass. -/
def mimoAdaptEqualizer (x dx : Mat) (p : ParamEq) :
    Mat × Mat × List (List ℚ) × List Mat :=
  let dx0 := if dx.length = 0 then x else dx
  let x1 := orient x
  let dx1 := orient dx0
  let nModes := (x1.headD []).length
  let xp := padSig x1 nModes (p.nTaps / 2)
  let L := if p.L = [] then [driverLdflt xp.length p.nTaps p.SpS] else p.L
  let H0 := if p.H.length = 0 then initH nModes p.nTaps else p.H
  (List.range p.numIter).foldl
    (fun st _ => coreAdaptEq xp dx1 p.SpS st.2.1 (L.headD 0) p.mu p.nTaps p.storeCoeff p.alg p.constSymb)
    ([], H0, [], [])

/-- The effective output length used by a driver call (L[0] after the
default rule has been applied). -/
def driverL (x : Mat) (p : ParamEq) : ℕ :=
  (if p.L = [] then
    [driverLdflt (padSig (orient x) ((orient x).headD []).length (p.nTaps / 2)).length p.nTaps p.SpS]
  else p.L).headD 0

/-- Index-based shape predicate: A has m rows, each of length n. -/
def MatShape (A : Mat) (m n : ℕ) : Prop :=
  A.length = m ∧ ∀ i, i < m → (A.getD i []).length = n

instance (A : Mat) (m n : ℕ) : Decidable (MatShape A m n) := by
  unfold MatShape; infer_instance

section AccessLemmas

variable {α β : Type _}

theorem getD_ge (l : List α) (i : ℕ) (d : α) (h : l.length ≤ i) : l.getD i d = d := by
  rw [List.getD_eq_getElem?_getD, List.getElem?_eq_none (by simpa using h)]
  rfl

theorem getD_map_lt (f : α → β) (l : List α) (i : ℕ) (d : β) (d' : α) (h : i < l.length) :
    (l.map f).getD i d = f (l.getD i d') := by
  induction l generalizing i with
  | nil => simp at h
  | cons a rest ih =>
    cases i with
    | zero => rfl
    | succ n => simpa using ih n (by simpa using h)

theorem mget_mk (f : ℕ → ℕ → Cq) (n m t N : ℕ) (ht : t < n) (hN : N < m) :
    mget ((List.range n).map (fun t => (List.range m).map (fun N => f t N))) t N = f t N := by
  unfold mget vget
  rw [getD_map_range _ _ _ _ ht, getD_map_range _ _ _ _ hN]

theorem mmul_length (m k n : ℕ) (A B : Mat) : (mmul m k n A B).length = m := by
  simp [mmul]

theorem mmul_row_length (m k n : ℕ) (A B : Mat) (i : ℕ) (hi : i < m) :
    ((mmul m k n A B).getD i []).length = n := by
  unfold mmul
  rw [getD_map_range _ _ _ _ hi]
  simp

theorem mget_mmul (m k n : ℕ) (A B : Mat) (i j : ℕ) (hi : i < m) (hj : j < n) :
    mget (mmul m k n A B) i j = rsum k (fun t => mget A i t * mget B t j) := by
  unfold mmul mget vget
  rw [getD_map_range _ _ _ _ hi, getD_map_range _ _ _ _ hj]

theorem mget_diagM (v : Vec) (i j : ℕ) (hi : i < v.length) (hj : j < v.length) :
    mget (diagM v) i j = if i = j then vget v i else 0 := by
  unfold diagM mget vget
  rw [getD_map_range _ _ _ _ hi, getD_map_range _ _ _ _ hj]

theorem conj_zero : conj 0 = 0 := by ext <;> simp [conj]

theorem mget_conjM (A : Mat) (i j : ℕ) : mget (conjM A) i j = conj (mget A i j) := by
  unfold conjM mget vget
  rcases Nat.lt_or_ge i A.length with hi | hi
  · rw [getD_map_lt (fun r => r.map conj) A i [] [] hi]
    rcases Nat.lt_or_ge j (A.getD i []).length with hj | hj
    · rw [getD_map_lt conj _ j 0 0 hj]
    · rw [getD_ge ((A.getD i []).map conj) j 0 (by simpa using hj), getD_ge _ _ _ hj,
        conj_zero]
  · rw [getD_ge (A.map (fun r => r.map conj)) i [] (by simpa using hi), getD_ge A i [] hi]
    show (0 : Cq) = conj 0
    rw [conj_zero]

theorem mget_inAdaptParM (nModes : ℕ) (v : Vec) (j t : ℕ) (hj : j < nModes) (ht : t < v.length) :
    mget (inAdaptParM nModes v) j t = vget v t := by
  unfold inAdaptParM transposeM mget vget
  cases v with
  | nil => simp at ht
  | cons a rest =>
    have hhead : (((a :: rest).map (List.replicate nModes)).headD []).length = nModes := by simp
    rw [hhead, getD_map_range _ _ _ _ hj]
    rw [getD_map_lt (fun r => List.getD r j 0) ((a :: rest).map (List.replicate nModes)) t 0 [] (by simpa using ht)]
    rw [getD_map_lt (List.replicate nModes) (a :: rest) t [] 0 ht,
      getD_replicate _ _ _ _ hj]

end AccessLemmas

section UpdateLemmas

/-- Row indices j + N*n with j < n determine j and N uniquely. -/
theorem rowIdx_inj (n j j' N M : ℕ) (hj : j < n) (hj' : j' < n)
    (h : j + N*n = j' + M*n) : j = j' ∧ N = M := by
  have hn : 0 < n := by omega
  have h1 : (j + N*n) % n = j := by
    rw [Nat.add_mul_mod_self_right, Nat.mod_eq_of_lt hj]
  have h2 : (j' + M*n) % n = j' := by
    rw [Nat.add_mul_mod_self_right, Nat.mod_eq_of_lt hj']
  have h3 : (j + N*n) / n = N := by
    rw [Nat.add_mul_div_right _ _ hn, Nat.div_eq_of_lt hj, Nat.zero_add]
  have h4 : (j' + M*n) / n = M := by
    rw [Nat.add_mul_div_right _ _ hn, Nat.div_eq_of_lt hj', Nat.zero_add]
  constructor
  · rw [← h1, ← h2, h]
  · rw [← h3, ← h4, h]

/-- A foldl whose step preserves list length preserves list length. -/
theorem foldl_length_inv {β : Type _} (F : Mat → β → Mat)
    (hF : ∀ B b, (F B b).length = B.length) :
    ∀ (l : List β) (A : Mat), (l.foldl F A).length = A.length := by
  intro l
  induction l with
  | nil => intro A; rfl
  | cons b rest ih => intro A; rw [List.foldl_cons, ih, hF]

theorem updRows_length (A : Mat) (N n : ℕ) (mu : ℚ) (U : Mat) :
    (updRows A N n mu U).length = A.length := by
  unfold updRows
  exact foldl_length_inv _ (fun B j => List.length_set _ _ _) _ A

theorem updRowsAux_ne (mu : ℚ) (U : Mat) (N n : ℕ) :
    ∀ (m : ℕ) (A : Mat) (r : ℕ), (∀ j, j < m → r ≠ j + N*n) →
    ((List.range m).foldl
      (fun B j => B.set (j + N*n)
        (List.zipWith (fun h u => h + C mu * u) (B.getD (j + N*n) []) (U.getD j []))) A).getD r []
    = A.getD r [] := by
  intro m
  induction m with
  | zero => intro A r _; rfl
  | succ m ih =>
    intro A r hr
    rw [List.range_succ, List.foldl_append, List.foldl_cons, List.foldl_nil]
    rw [getD_set_ne _ _ _ _ _ (fun he => hr m m.lt_succ_self he.symm)]
    exact ih A r (fun j hj => hr j (Nat.lt_succ_of_lt hj))

theorem updRowsAux_eq (mu : ℚ) (U : Mat) (N n : ℕ) :
    ∀ (m : ℕ) (A : Mat) (j : ℕ), j < m → j + N*n < A.length →
    ((List.range m).foldl
      (fun B j => B.set (j + N*n)
        (List.zipWith (fun h u => h + C mu * u) (B.getD (j + N*n) []) (U.getD j []))) A).getD (j + N*n) []
    = List.zipWith (fun h u => h + C mu * u) (A.getD (j + N*n) []) (U.getD j []) := by
  intro m
  induction m with
  | zero => intro A j hj; omega
  | succ m ih =>
    intro A j hj hlen
    rw [List.range_succ, List.foldl_append, List.foldl_cons, List.foldl_nil]
    rcases Nat.lt_or_ge j m with hlt | hge
    · rw [getD_set_ne _ _ _ _ _ (fun he => by
        have := (Nat.add_right_cancel he)
        omega)]
      exact ih A j hlt hlen
    · have hjm : j = m := by omega
      subst hjm
      have hlen' : j + N*n <
          (((List.range j).foldl (fun B j' => B.set (j' + N*n)
            (List.zipWith (fun h u => h + C mu * u) (B.getD (j' + N*n) []) (U.getD j' []))) A)).length := by
        rw [foldl_length_inv _ (fun B b => List.length_set _ _ _)]
        exact hlen
      rw [getD_set_self _ _ _ _ hlen']
      rw [updRowsAux_ne mu U N n j A (j + N*n) (fun j' hj' he => by
        have := Nat.add_right_cancel he
        omega)]

theorem updRows_getD_ne (A : Mat) (N n : ℕ) (mu : ℚ) (U : Mat) (r : ℕ)
    (h : ∀ j, j < n → r ≠ j + N*n) :
    (updRows A N n mu U).getD r [] = A.getD r [] := by
  unfold updRows
  exact updRowsAux_ne mu U N n n A r h

theorem updRows_getD_eq (A : Mat) (N n : ℕ) (mu : ℚ) (U : Mat) (j : ℕ)
    (hj : j < n) (hlen : j + N*n < A.length) :
    (updRows A N n mu U).getD (j + N*n) []
    = List.zipWith (fun h u => h + C mu * u) (A.getD (j + N*n) []) (U.getD j []) := by
  unfold updRows
  exact updRowsAux_eq mu U N n n A j hj hlen

/-- Rows of index j + N*n with N beyond the fold range are untouched by
the outer per-input-mode fold. -/
theorem foldUpdRows_ge (mu : ℚ) (U : ℕ → Mat) (n : ℕ) :
    ∀ (m : ℕ) (A : Mat) (j N : ℕ), j < n → m ≤ N →
    ((List.range m).foldl (fun B M => updRows B M n mu (U M)) A).getD (j + N*n) []
    = A.getD (j + N*n) [] := by
  intro m
  induction m with
  | zero => intro A j N _ _; rfl
  | succ m ih =>
    intro A j N hj hm
    rw [List.range_succ, List.foldl_append, List.foldl_cons, List.foldl_nil]
    rw [updRows_getD_ne _ _ _ _ _ _ (fun j' hj' he => by
      rcases rowIdx_inj n j j' N m hj hj' he with ⟨_, hNM⟩
      omega)]
    exact ih A j N hj (by omega)

theorem foldUpdRows_getD (mu : ℚ) (U : ℕ → Mat) (n : ℕ) :
    ∀ (m : ℕ) (A : Mat) (j N : ℕ), j < n → N < m → j + N*n < A.length →
    ((List.range m).foldl (fun B M => updRows B M n mu (U M)) A).getD (j + N*n) []
    = List.zipWith (fun h u => h + C mu * u) (A.getD (j + N*n) []) ((U N).getD j []) := by
  intro m
  induction m with
  | zero => intro A j N _ h; omega
  | succ m ih =>
    intro A j N hj hN hlen
    rw [List.range_succ, List.foldl_append, List.foldl_cons, List.foldl_nil]
    rcases Nat.lt_or_ge N m with hlt | hge
    · rw [updRows_getD_ne _ _ _ _ _ _ (fun j' hj' he => by
        rcases rowIdx_inj n j j' N m hj hj' he with ⟨_, hNM⟩
        omega)]
      exact ih A j N hj hlt hlen
    · have hNm : N = m := by omega
      subst hNm
      rw [updRows_getD_eq _ _ _ _ _ _ hj (by
        rw [foldl_length_inv _ (fun B b => updRows_length _ _ _ _ _)]
        exact hlen)]
      rw [foldUpdRows_ge mu U n N A j N hj (le_refl N)]

end UpdateLemmas

section RuleEntryLemmas

/-- Entry (j,k) of diag(e) @ diag(o): a diagonal matrix again. -/
theorem mget_prodDiag (e o : Vec) (n j k : ℕ) (hj : j < n) (hk : k < n)
    (he : e.length = n) (ho : o.length = n) :
    mget (mmul n n n (diagM e) (diagM o)) j k
    = if j = k then vget e j * vget o j else 0 := by
  rw [mget_mmul n n n _ _ j k hj hk]
  have hstep : rsum n (fun i => mget (diagM e) j i * mget (diagM o) i k)
      = rsum n (fun i => (if j = i then vget e j else 0) * mget (diagM o) i k) := by
    refine rsum_congr _ _ _ (fun i hi => ?_)
    rw [mget_diagM e j i (he ▸ hj) (he ▸ hi)]
  rw [hstep, rsum_ite_mul n j _ _ hj, mget_diagM o j k (ho ▸ hj) (ho ▸ hk)]
  rcases eq_or_ne j k with h | h
  · rw [if_pos h, if_pos h]
  · rw [if_neg h, if_neg h, mul_zero]

/-- Entry (j,t) of E @ conj(inAdaptPar) when row j of E is a Kronecker
delta carrying the factor a (the shape shared by errDiag and prodErrOut
rows). -/
theorem mget_deltaUpd (E : Mat) (a : Cq) (w : Vec) (n xl j t : ℕ)
    (hj : j < n) (ht : t < xl) (hw : w.length = xl)
    (hE : ∀ k, k < n → mget E j k = if j = k then a else 0) :
    mget (mmul n n xl E (conjM (inAdaptParM n w))) j t = a * conj (vget w t) := by
  rw [mget_mmul n n xl _ _ j t hj ht]
  have hstep : rsum n (fun k => mget E j k * mget (conjM (inAdaptParM n w)) k t)
      = rsum n (fun k => (if j = k then a else 0) * mget (conjM (inAdaptParM n w)) k t) := by
    refine rsum_congr _ _ _ (fun k hk => ?_)
    rw [hE k hk]
  rw [hstep, rsum_ite_mul n j _ _ hj, mget_conjM, mget_inAdaptParM n w j t hj (hw ▸ ht)]

/-- Entry (j + N*n, t) of the tap matrix produced by the shared
per-input-mode gradient fold of the four update rules. -/
theorem gradFold_entry (mu : ℚ) (E : Mat) (a : Cq) (w : ℕ → Vec) (n xl : ℕ) (H : Mat)
    (j N t : ℕ) (hj : j < n) (hN : N < n) (ht : t < xl)
    (hw : (w N).length = xl)
    (hr : j + N*n < H.length) (hrow : (H.getD (j + N*n) []).length = xl)
    (hE : ∀ k, k < n → mget E j k = if j = k then a else 0) :
    mget ((List.range n).foldl
      (fun B M => updRows B M n mu (mmul n n xl E (conjM (inAdaptParM n (w M))))) H)
      (j + N*n) t
    = mget H (j + N*n) t + C mu * (a * conj (vget (w N) t)) := by
  unfold mget
  rw [foldUpdRows_getD mu _ n n H j N hj hN hr]
  unfold vget
  rw [getD_zipWith _ _ _ t 0 0 0 (by rw [hrow]; exact ht)
    (by rw [mmul_row_length n n xl _ _ j hj]; exact ht)]
  have := mget_deltaUpd E a (w N) n xl j t hj ht hw hE
  unfold mget vget at this
  rw [this]

end RuleEntryLemmas

section RuleRowValues

theorem divq_one (z : Cq) : divq z 1 = z := by ext <;> simp [divq]

theorem nlmsUp_entry (x : Mat) (dx out : Vec) (mu : ℚ) (H : Mat) (n j N t : ℕ)
    (hj : j < n) (hN : N < n) (ht : t < x.length)
    (hr : j + N*n < H.length) (hrow : (H.getD (j + N*n) []).length = x.length) :
    mget (nlmsUp x dx out mu H n).1 (j + N*n) t
    = mget H (j + N*n) t
      + C mu * ((vget dx j - vget out j)
        * conj (divq (mget x t N) (rsumQ x.length (fun s => normSq (mget x s N))))) := by
  unfold nlmsUp
  simp only []
  have hlen : ((List.range n).map (fun i => vget dx i - vget out i)).length = n := by simp
  have h := gradFold_entry mu (diagM ((List.range n).map (fun i => vget dx i - vget out i)))
    (vget dx j - vget out j)
    (fun M => (List.range x.length).map
      (fun t => divq (mget x t M) (rsumQ x.length (fun s => normSq (mget x s M)))))
    n x.length H j N t hj hN ht (by simp) hr hrow
    (fun k hk => by
      rw [mget_diagM _ j k (by simpa using hj) (by simpa using hk)]
      unfold vget
      rw [getD_map_range _ _ _ _ hj])
  rw [h]
  unfold vget
  rw [getD_map_range _ _ _ _ ht]

theorem ddlmsUp_entry (x : Mat) (constSymb : Vec) (out : Vec) (mu : ℚ) (H : Mat) (n j N t : ℕ)
    (hj : j < n) (hN : N < n) (ht : t < x.length)
    (hr : j + N*n < H.length) (hrow : (H.getD (j + N*n) []).length = x.length) :
    mget (ddlmsUp x constSymb out mu H n).1 (j + N*n) t
    = mget H (j + N*n) t
      + C mu * ((ddlmsDecide constSymb (vget out j) - vget out j) * conj (mget x t N)) := by
  unfold ddlmsUp
  simp only []
  have hlen : ((List.range n).map (fun k =>
      vget ((List.range n).map (fun k => ddlmsDecide constSymb (vget out k))) k - vget out k)).length = n := by
    simp
  have h := gradFold_entry mu
    (diagM ((List.range n).map (fun k =>
      vget ((List.range n).map (fun k => ddlmsDecide constSymb (vget out k))) k - vget out k)))
    (ddlmsDecide constSymb (vget out j) - vget out j)
    (fun M => (List.range x.length).map (fun t => mget x t M))
    n x.length H j N t hj hN ht (by simp) hr hrow
    (fun k hk => by
      rw [mget_diagM _ j k (by simpa using hj) (by simpa using hk)]
      unfold vget
      rw [getD_map_range _ _ _ _ hj, getD_map_range _ _ _ _ hj])
  rw [h]
  unfold vget
  rw [getD_map_range _ _ _ _ ht]

theorem cmaUp_entry (x : Mat) (R : ℚ) (out : Vec) (mu : ℚ) (H : Mat) (n j N t : ℕ)
    (hj : j < n) (hN : N < n) (ht : t < x.length)
    (hr : j + N*n < H.length) (hrow : (H.getD (j + N*n) []).length = x.length) :
    mget (cmaUp x R out mu H n).1 (j + N*n) t
    = mget H (j + N*n) t
      + C mu * ((C R - C (normSq (vget out j))) * vget out j * conj (mget x t N)) := by
  unfold cmaUp
  simp only []
  have hlen1 : ((List.range n).map (fun j => C R - C (normSq (vget out j)))).length = n := by simp
  have hlen2 : ((List.range n).map (fun j => vget out j)).length = n := by simp
  have h := gradFold_entry mu
    (mmul n n n (diagM ((List.range n).map (fun j => C R - C (normSq (vget out j)))))
      (diagM ((List.range n).map (fun j => vget out j))))
    ((C R - C (normSq (vget out j))) * vget out j)
    (fun M => (List.range x.length).map (fun t => mget x t M))
    n x.length H j N t hj hN ht (by simp) hr hrow
    (fun k hk => by
      rw [mget_prodDiag _ _ n j k hj hk hlen1 hlen2]
      unfold vget
      rw [getD_map_range _ _ _ _ hj, getD_map_range _ _ _ _ hj])
  rw [h]
  unfold vget
  rw [getD_map_range _ _ _ _ ht]

theorem rdeUp_entry (x : Mat) (R2 : List ℚ) (out : Vec) (mu : ℚ) (H : Mat) (n j N t : ℕ)
    (hj : j < n) (hN : N < n) (ht : t < x.length)
    (hr : j + N*n < H.length) (hrow : (H.getD (j + N*n) []).length = x.length) :
    mget (rdeUp x R2 out mu H n).1 (j + N*n) t
    = mget H (j + N*n) t
      + C mu * ((C (rdeSel R2 (normSq (vget out j))) - C (normSq (vget out j)))
        * vget out j * conj (mget x t N)) := by
  unfold rdeUp
  simp only []
  have hlen1 : ((List.range n).map (fun k =>
      C (((List.range n).map (fun k => rdeSel R2 (normSq (vget out k)))).getD k 0)
        - C (normSq (vget out k)))).length = n := by simp
  have hlen2 : ((List.range n).map (fun j => vget out j)).length = n := by simp
  have h := gradFold_entry mu
    (mmul n n n (diagM ((List.range n).map (fun k =>
        C (((List.range n).map (fun k => rdeSel R2 (normSq (vget out k)))).getD k 0)
          - C (normSq (vget out k)))))
      (diagM ((List.range n).map (fun j => vget out j))))
    ((C (rdeSel R2 (normSq (vget out j))) - C (normSq (vget out j))) * vget out j)
    (fun M => (List.range x.length).map (fun t => mget x t M))
    n x.length H j N t hj hN ht (by simp) hr hrow
    (fun k hk => by
      rw [mget_prodDiag _ _ n j k hj hk hlen1 hlen2]
      unfold vget
      rw [getD_map_range _ _ _ _ hj, getD_map_range _ _ _ _ hj, getD_map_range _ _ _ _ hj])
  rw [h]
  unfold vget
  rw [getD_map_range _ _ _ _ ht]

end RuleRowValues

section ClaimSideDefs

/-- The error term of each adaptation rule, as derived by the source
(spec section 4.3): data-aided difference for NLMS, modulus-power
mismatch for CMA, decision-directed difference for DDLMS, squared-radius
mismatch for RDE. -/
def errTerm (alg : Alg) (Rc : ℚ) (R2 : List ℚ) (constSymb : Vec) (dxRow out : Vec) (j : ℕ) : Cq :=
  match alg with
  | Alg.nlms => vget dxRow j - vget out j
  | Alg.cma => C Rc - C (normSq (vget out j))
  | Alg.ddlms => ddlmsDecide constSymb (vget out j) - vget out j
  | Alg.rde => C (rdeSel R2 (normSq (vget out j))) - C (normSq (vget out j))

/-- The extra per-mode output factor appearing in the CMA and RDE tap
updates (from prodErrOut = diag(err) @ diag(outEq)). -/
def outFactor (alg : Alg) (out : Vec) (j : ℕ) : Cq :=
  match alg with
  | Alg.cma => vget out j
  | Alg.rde => vget out j
  | _ => 1

/-- The input-energy normalization divisor of the window, 1 except for
NLMS where it is the squared norm of the mode's window. -/
def energyFactor (alg : Alg) (x : Mat) (N : ℕ) : ℚ :=
  match alg with
  | Alg.nlms => rsumQ x.length (fun s => normSq (mget x s N))
  | _ => 1

end ClaimSideDefs

/-- Claim C1 (counterexample): the CMA tap update does not equal
old row + mu * (error term) * conj(window): at window [[1]], R = 1,
output 2, mu = 1, H = [[0]], the code produces -6 (the update is
additionally scaled by the output), while the claimed formula gives
-3. -/
theorem claim_C1_counterexample :
    (cmaUp [[Cq.mk 1 0]] 1 [Cq.mk 2 0] 1 [[0]] 1).1
    ≠ [[(0 : Cq) + C 1 * ((C 1 - C (normSq (Cq.mk 2 0))) * conj (Cq.mk 1 0))]] := by
  with_unfolding_all decide

/-- Claim C1 (amended): every tap-update step of the four rules replaces
the row for (output mode j, input mode N) by the old row plus mu times
(error term) * (output factor) * conj(window entry / energy factor),
where the output factor is the j-th output for CMA and RDE and 1
otherwise, and the energy factor is the window energy for NLMS and 1
otherwise. -/
theorem claim_C1_amended (alg : Alg) (xw : Mat) (dxRow out : Vec) (mu : ℚ) (H : Mat)
    (n : ℕ) (Rc : ℚ) (R2 : List ℚ) (constSymb : Vec) (j N t : ℕ)
    (hj : j < n) (hN : N < n) (ht : t < xw.length)
    (hr : j + N*n < H.length) (hrow : (H.getD (j + N*n) []).length = xw.length) :
    mget ((algUpdate alg xw dxRow out mu H n Rc R2 constSymb).1) (j + N*n) t
    = mget H (j + N*n) t
      + C mu * (errTerm alg Rc R2 constSymb dxRow out j * outFactor alg out j
        * conj (divq (mget xw t N) (energyFactor alg xw N))) := by
  cases alg with
  | nlms =>
    rw [show algUpdate Alg.nlms xw dxRow out mu H n Rc R2 constSymb
      = nlmsUp xw dxRow out mu H n from rfl]
    rw [nlmsUp_entry xw dxRow out mu H n j N t hj hN ht hr hrow]
    unfold errTerm outFactor energyFactor
    ring
  | cma =>
    rw [show algUpdate Alg.cma xw dxRow out mu H n Rc R2 constSymb
      = cmaUp xw Rc out mu H n from rfl]
    rw [cmaUp_entry xw Rc out mu H n j N t hj hN ht hr hrow]
    unfold errTerm outFactor energyFactor
    rw [divq_one]
  | ddlms =>
    rw [show algUpdate Alg.ddlms xw dxRow out mu H n Rc R2 constSymb
      = ddlmsUp xw constSymb out mu H n from rfl]
    rw [ddlmsUp_entry xw constSymb out mu H n j N t hj hN ht hr hrow]
    unfold errTerm outFactor energyFactor
    rw [divq_one]
    ring
  | rde =>
    rw [show algUpdate Alg.rde xw dxRow out mu H n Rc R2 constSymb
      = rdeUp xw R2 out mu H n from rfl]
    rw [rdeUp_entry xw R2 out mu H n j N t hj hN ht hr hrow]
    unfold errTerm outFactor energyFactor
    rw [divq_one]

/-- Witness for claim C1 (amended) at a concrete CMA input. -/
theorem claim_C1_amended_witness :
    ((0 : ℕ) < 1 ∧ (0 : ℕ) < (1 : ℕ))
    ∧ mget ((algUpdate Alg.cma [[Cq.mk 1 0]] [] [Cq.mk 2 0] 1 [[0]] 1 1 [] []).1) (0 + 0*1) 0
      = mget [[0]] (0 + 0*1) 0
        + C 1 * (errTerm Alg.cma 1 [] [] [] [Cq.mk 2 0] 0 * outFactor Alg.cma [Cq.mk 2 0] 0
          * conj (divq (mget [[Cq.mk 1 0]] 0 0) (energyFactor Alg.cma [[Cq.mk 1 0]] 0))) := by
  refine ⟨⟨by decide, by decide⟩, ?_⟩
  exact claim_C1_amended Alg.cma [[Cq.mk 1 0]] [] [Cq.mk 2 0] 1 [[0]] 1 1 [] [] 0 0 0
    (by decide) (by decide) (by decide) (by decide) (by decide)

/-- Claim C4: the NLMS update divides by the window energy with no guard:
for the all-zero window the divisor rsumQ x.length (fun s => normSq
(mget x s N)) computed by nlmsUp is exactly 0, and the update still
returns normally (no error path exists), with the squared error reported
as usual.  (In float arithmetic the 0/0 division makes the taps NaN; in
this exact embedding division by zero yields 0, so the returned taps
equal the old ones.) -/
theorem claim_C4 :
    rsumQ ([[(0 : Cq)]].length) (fun s => normSq (mget [[(0 : Cq)]] s 0)) = 0
    ∧ nlmsUp [[(0 : Cq)]] [Cq.mk 1 0] [0] 1 [[Cq.mk 5 0]] 1 = ([[Cq.mk 5 0]], [1]) := by
  with_unfolding_all decide

/-- Claim C7: in the NLMS update the error is the reference minus the
current output, the returned squared error per mode is its squared
modulus (a real value), and the tap increment scales the conjugated
window divided by that mode's window energy by mu. -/
theorem claim_C7 (xw : Mat) (dx out : Vec) (mu : ℚ) (H : Mat) (n j N t : ℕ)
    (hj : j < n) (hN : N < n) (ht : t < xw.length)
    (hr : j + N*n < H.length) (hrow : (H.getD (j + N*n) []).length = xw.length) :
    (nlmsUp xw dx out mu H n).2 = (List.range n).map (fun i => normSq (vget dx i - vget out i))
    ∧ mget (nlmsUp xw dx out mu H n).1 (j + N*n) t
      = mget H (j + N*n) t
        + C mu * ((vget dx j - vget out j)
          * conj (divq (mget xw t N) (rsumQ xw.length (fun s => normSq (mget xw s N))))) := by
  constructor
  · unfold nlmsUp
    simp only []
    rw [List.map_map]
    rfl
  · exact nlmsUp_entry xw dx out mu H n j N t hj hN ht hr hrow

/-- Witness for claim C7 at a concrete two-tap one-mode input. -/
theorem claim_C7_witness :
    ((0 : ℕ) < 1 ∧ (0 : ℕ) < ([[Cq.mk 1 1], [Cq.mk 2 0]] : Mat).length)
    ∧ ((nlmsUp [[Cq.mk 1 1], [Cq.mk 2 0]] [Cq.mk 3 0] [Cq.mk 1 0] 1 [[0, 0]] 1).2
        = (List.range 1).map (fun i => normSq (vget [Cq.mk 3 0] i - vget [Cq.mk 1 0] i))
      ∧ mget (nlmsUp [[Cq.mk 1 1], [Cq.mk 2 0]] [Cq.mk 3 0] [Cq.mk 1 0] 1 [[0, 0]] 1).1 (0 + 0*1) 0
        = mget [[0, 0]] (0 + 0*1) 0
          + C 1 * ((vget [Cq.mk 3 0] 0 - vget [Cq.mk 1 0] 0)
            * conj (divq (mget [[Cq.mk 1 1], [Cq.mk 2 0]] 0 0)
              (rsumQ ([[Cq.mk 1 1], [Cq.mk 2 0]] : Mat).length
                (fun s => normSq (mget [[Cq.mk 1 1], [Cq.mk 2 0]] s 0)))))) := by
  refine ⟨⟨by decide, by decide⟩, ?_⟩
  exact claim_C7 [[Cq.mk 1 1], [Cq.mk 2 0]] [Cq.mk 3 0] [Cq.mk 1 0] 1 [[0, 0]] 1 0 0 0
    (by decide) (by decide) (by decide) (by decide) (by decide)

section CoreLemmas

/-- Entry j of an accumulating zipWith-add fold of equal-length vectors. -/
theorem foldl_zipadd (n : ℕ) (g : ℕ → Vec) (j : ℕ) (hj : j < n) :
    ∀ (l : List ℕ) (z : Vec), z.length = n → (∀ N, (g N).length = n) →
    (l.foldl (fun acc N => List.zipWith (fun a b => a + b) acc (g N)) z).getD j 0
    = z.getD j 0 + (l.map (fun N => (g N).getD j 0)).sum := by
  intro l
  induction l with
  | nil => intro z hz _; simp
  | cons N rest ih =>
    intro z hz hg
    rw [List.foldl_cons]
    rw [ih (List.zipWith (fun a b => a + b) z (g N))
      (by rw [List.length_zipWith, hz, hg N, Nat.min_self]) hg]
    rw [getD_zipWith _ _ _ j 0 0 0 (by omega) (by rw [hg N]; exact hj)]
    rw [List.map_cons, List.sum_cons, add_assoc]

theorem coreRun_succ (x dx : Mat) (SpS : ℕ) (mu : ℚ) (nTaps nModes : ℕ) (sc : Bool)
    (alg : Alg) (cs : Vec) (H : Mat) (L k : ℕ) :
    coreRun x dx SpS mu nTaps nModes sc alg cs H L (k+1)
    = eqStep x dx SpS mu nTaps nModes sc alg (RcmaOf cs) (RrdeOf cs) cs
        (coreRun x dx SpS mu nTaps nModes sc alg cs H L k) k := by
  unfold coreRun
  rw [List.range_succ, List.foldl_append, List.foldl_cons, List.foldl_nil]

theorem eqStep_yEq_length (x dx : Mat) (SpS : ℕ) (mu : ℚ) (nTaps nModes : ℕ) (sc : Bool)
    (alg : Alg) (Rc : ℚ) (R2 : List ℚ) (cs : Vec) (st : CoreSt) (ind : ℕ) :
    (eqStep x dx SpS mu nTaps nModes sc alg Rc R2 cs st ind).yEq.length = st.yEq.length := by
  unfold eqStep
  simp only []
  rw [List.length_set]

theorem coreRun_yEq_length (x dx : Mat) (SpS : ℕ) (mu : ℚ) (nTaps nModes : ℕ) (sc : Bool)
    (alg : Alg) (cs : Vec) (H : Mat) (L : ℕ) :
    ∀ k, (coreRun x dx SpS mu nTaps nModes sc alg cs H L k).yEq.length = min L x.length := by
  intro k
  induction k with
  | zero =>
    unfold coreRun coreInit
    simp
  | succ k ih =>
    rw [coreRun_succ, eqStep_yEq_length, ih]

theorem coreRun_yEq_stable (x dx : Mat) (SpS : ℕ) (mu : ℚ) (nTaps nModes : ℕ) (sc : Bool)
    (alg : Alg) (cs : Vec) (H : Mat) (L i : ℕ) :
    ∀ m, i < m →
    (coreRun x dx SpS mu nTaps nModes sc alg cs H L m).yEq.getD i []
    = (coreRun x dx SpS mu nTaps nModes sc alg cs H L (i+1)).yEq.getD i [] := by
  intro m
  induction m with
  | zero => omega
  | succ m ih =>
    intro him
    rcases Nat.lt_or_ge i m with hlt | hge
    · rw [← ih hlt, coreRun_succ]
      show ((eqStep _ _ _ _ _ _ _ _ _ _ _ _ m).yEq).getD i [] = _
      unfold eqStep
      simp only []
      rw [getD_set_ne _ _ _ _ _ (by omega)]
    · have : i = m := by omega
      subst this
      rfl

/-- The output vector written at step ind: the fold accumulating the
contribution of every input mode, evaluated at output mode j. -/
theorem eqStep_out_entry (x : Mat) (SpS : ℕ) (nTaps nModes : ℕ) (Hc : Mat) (ind j : ℕ)
    (hj : j < nModes) :
    ((List.range nModes).foldl (fun acc N =>
      List.zipWith (fun a b => a + b) acc
        ((List.range nModes).map (fun j => rsum nTaps (fun t => mget Hc (j + N*nModes) t
          * mget ((List.range nTaps).map (fun t => (List.range nModes).map (fun N => mget x (ind*SpS + t) N))) t N))))
      (List.replicate nModes (0 : Cq))).getD j 0
    = rsum nModes (fun N => rsum nTaps (fun t => mget Hc (j + N*nModes) t * mget x (ind*SpS + t) N)) := by
  rw [foldl_zipadd nModes _ j hj (List.range nModes) _ (by simp) (by intro N; simp)]
  rw [getD_replicate _ _ _ _ hj, zero_add]
  show rsum nModes _ = rsum nModes _
  refine rsum_congr _ _ _ (fun N hN => ?_)
  rw [getD_map_range _ _ _ _ hj]
  refine rsum_congr _ _ _ (fun t ht => ?_)
  rw [mget_mk _ _ _ _ _ ht hN]

/-- Claim C5: each recorded output vector entry is the cross-mode sum of
window-times-tap-row dot products against the tap state current at that
step. -/
theorem claim_C5 (x dx : Mat) (SpS : ℕ) (H : Mat) (L : ℕ) (mu : ℚ) (nTaps : ℕ)
    (sc : Bool) (alg : Alg) (cs : Vec) (i j : ℕ)
    (hi : i < L) (hL : L ≤ x.length) (hj : j < (x.headD []).length) :
    vget (((coreAdaptEq x dx SpS H L mu nTaps sc alg cs).1).getD i []) j
    = rsum (x.headD []).length (fun N => rsum nTaps (fun t =>
        mget ((coreRun x dx SpS mu nTaps ((x.headD []).length) sc alg cs H L i).H)
          (j + N*((x.headD []).length)) t
        * mget x (i*SpS + t) N)) := by
  show vget (((coreRun x dx SpS mu nTaps ((x.headD []).length) sc alg cs H L L).yEq).getD i []) j = _
  rw [coreRun_yEq_stable x dx SpS mu nTaps _ sc alg cs H L i L hi, coreRun_succ]
  show vget (((eqStep _ _ _ _ _ _ _ _ _ _ _ _ i).yEq).getD i []) j = _
  unfold eqStep
  simp only []
  rw [getD_set_self _ _ _ _ (by
    rw [coreRun_yEq_length]
    omega)]
  unfold vget
  rw [eqStep_out_entry x SpS nTaps _ _ i j hj]

/-- Witness for claim C5 on a one-mode one-tap run. -/
theorem claim_C5_witness :
    ((0 : ℕ) < 1 ∧ (1 : ℕ) ≤ ([[Cq.mk 2 0]] : Mat).length
      ∧ (0 : ℕ) < (([[Cq.mk 2 0]] : Mat).headD []).length)
    ∧ vget (((coreAdaptEq [[Cq.mk 2 0]] [[Cq.mk 2 0]] 1 [[Cq.mk 1 0]] 1 1 1 false Alg.cma
        [Cq.mk 1 0]).1).getD 0 []) 0
      = rsum (([[Cq.mk 2 0]] : Mat).headD []).length (fun N => rsum 1 (fun t =>
          mget ((coreRun [[Cq.mk 2 0]] [[Cq.mk 2 0]] 1 1 1 (([[Cq.mk 2 0]] : Mat).headD []).length
            false Alg.cma [Cq.mk 1 0] [[Cq.mk 1 0]] 1 0).H)
            (0 + N*(([[Cq.mk 2 0]] : Mat).headD []).length) t
          * mget [[Cq.mk 2 0]] (0*1 + t) N)) := by
  refine ⟨⟨by decide, by decide, by decide⟩, ?_⟩
  exact claim_C5 [[Cq.mk 2 0]] [[Cq.mk 2 0]] 1 [[Cq.mk 1 0]] 1 1 1 false Alg.cma [Cq.mk 1 0]
    0 0 (by decide) (by decide) (by decide)

/-- The per-step state update ignores the reference stream for the three
non-data-aided rules. -/
theorem eqStep_no_dx (x dx dx' : Mat) (SpS : ℕ) (mu : ℚ) (nTaps nModes : ℕ) (sc : Bool)
    (alg : Alg) (Rc : ℚ) (R2 : List ℚ) (cs : Vec) (st : CoreSt) (ind : ℕ)
    (halg : alg ≠ Alg.nlms) :
    eqStep x dx SpS mu nTaps nModes sc alg Rc R2 cs st ind
    = eqStep x dx' SpS mu nTaps nModes sc alg Rc R2 cs st ind := by
  cases alg with
  | nlms => exact absurd rfl halg
  | cma => rfl
  | ddlms => rfl
  | rde => rfl

theorem coreRun_no_dx (x dx dx' : Mat) (SpS : ℕ) (mu : ℚ) (nTaps nModes : ℕ) (sc : Bool)
    (alg : Alg) (cs : Vec) (H : Mat) (L : ℕ) (halg : alg ≠ Alg.nlms) :
    ∀ k, coreRun x dx SpS mu nTaps nModes sc alg cs H L k
    = coreRun x dx' SpS mu nTaps nModes sc alg cs H L k := by
  have hf : eqStep x dx SpS mu nTaps nModes sc alg (RcmaOf cs) (RrdeOf cs) cs
      = eqStep x dx' SpS mu nTaps nModes sc alg (RcmaOf cs) (RrdeOf cs) cs :=
    funext (fun st => funext (fun ind =>
      eqStep_no_dx x dx dx' SpS mu nTaps nModes sc alg _ _ cs st ind halg))
  intro k
  unfold coreRun
  rw [hf]

/-- Claim C10: for CMA, DDLMS and RDE the Reference Stream never
influences the Core Adaptation Engine: all four outputs coincide for any
two reference streams. -/
theorem claim_C10 (x dx dx' : Mat) (SpS : ℕ) (H : Mat) (L : ℕ) (mu : ℚ) (nTaps : ℕ)
    (sc : Bool) (alg : Alg) (cs : Vec)
    (halg : alg = Alg.cma ∨ alg = Alg.ddlms ∨ alg = Alg.rde) :
    coreAdaptEq x dx SpS H L mu nTaps sc alg cs
    = coreAdaptEq x dx' SpS H L mu nTaps sc alg cs := by
  have hne : alg ≠ Alg.nlms := by
    rcases halg with h | h | h <;> subst h <;> intro hc <;> exact Alg.noConfusion hc
  unfold coreAdaptEq
  simp only []
  rw [coreRun_no_dx x dx dx' SpS mu nTaps _ sc alg cs H L hne L]

/-- Witness for claim C10: a CMA run with two different reference
streams. -/
theorem claim_C10_witness :
    (Alg.cma = Alg.cma ∨ Alg.cma = Alg.ddlms ∨ Alg.cma = Alg.rde)
    ∧ coreAdaptEq [[Cq.mk 2 0]] [[Cq.mk 3 0]] 1 [[Cq.mk 1 0]] 1 1 1 false Alg.cma [Cq.mk 1 0]
      = coreAdaptEq [[Cq.mk 2 0]] [[Cq.mk 7 7]] 1 [[Cq.mk 1 0]] 1 1 1 false Alg.cma [Cq.mk 1 0] := by
  refine ⟨Or.inl rfl, ?_⟩
  exact claim_C10 [[Cq.mk 2 0]] [[Cq.mk 3 0]] [[Cq.mk 7 7]] 1 [[Cq.mk 1 0]] 1 1 1 false
    Alg.cma [Cq.mk 1 0] (Or.inl rfl)

end CoreLemmas

section ShapeLemmas

theorem set_ge {α : Type _} (l : List α) (i : ℕ) (v : α) (h : l.length ≤ i) :
    l.set i v = l := by
  induction l generalizing i with
  | nil => rfl
  | cons a rest ih =>
    cases i with
    | zero => simp at h
    | succ n => simp only [List.set_cons_succ]; rw [ih n (by simpa using h)]

/-- A fold whose members preserve the shape invariant preserves it. -/
theorem foldl_matshape {β : Type _} (m τ : ℕ) (F : Mat → β → Mat) :
    ∀ (l : List β), (∀ B b, b ∈ l → MatShape B m τ → MatShape (F B b) m τ) →
    ∀ A, MatShape A m τ → MatShape (l.foldl F A) m τ := by
  intro l
  induction l with
  | nil => intro _ A hA; exact hA
  | cons b rest ih =>
    intro hF A hA
    rw [List.foldl_cons]
    exact ih (fun B b' hb' => hF B b' (List.mem_cons_of_mem b hb'))
      (F A b) (hF A b (List.mem_cons_self b rest) hA)

theorem updRows_matshape (A : Mat) (N n m τ : ℕ) (mu : ℚ) (U : Mat)
    (hU : ∀ j, j < n → ((U.getD j []).length) = τ)
    (hA : MatShape A m τ) : MatShape (updRows A N n mu U) m τ := by
  unfold updRows
  refine foldl_matshape m τ _ (List.range n) (fun B j hj hB => ?_) A hA
  have hjn : j < n := List.mem_range.mp hj
  rcases Nat.lt_or_ge (j + N*n) m with hr | hr
  · constructor
    · rw [List.length_set]; exact hB.1
    · intro i hi
      rcases eq_or_ne i (j + N*n) with hij | hij
      · subst hij
        rw [getD_set_self _ _ _ _ (by rw [hB.1]; exact hr)]
        rw [List.length_zipWith, hB.2 _ hr, hU j hjn, Nat.min_self]
      · rw [getD_set_ne _ _ _ _ _ (fun he => hij he.symm)]
        exact hB.2 i hi
  · rw [set_ge _ _ _ (by rw [hB.1]; exact hr)]
    exact hB

theorem algUpdate_matshape (alg : Alg) (xw : Mat) (dxRow out : Vec) (mu : ℚ) (H : Mat)
    (n : ℕ) (Rc : ℚ) (R2 : List ℚ) (cs : Vec) (m τ : ℕ)
    (hxl : xw.length = τ) (hH : MatShape H m τ) :
    MatShape ((algUpdate alg xw dxRow out mu H n Rc R2 cs).1) m τ := by
  subst hxl
  cases alg with
  | nlms =>
    show MatShape ((nlmsUp xw dxRow out mu H n).1) m xw.length
    unfold nlmsUp
    simp only []
    exact foldl_matshape m xw.length _ (List.range n)
      (fun B N hN hB => updRows_matshape B N n m xw.length mu _
        (fun j hj => mmul_row_length n n xw.length _ _ j hj) hB) H hH
  | cma =>
    show MatShape ((cmaUp xw Rc out mu H n).1) m xw.length
    unfold cmaUp
    simp only []
    exact foldl_matshape m xw.length _ (List.range n)
      (fun B N hN hB => updRows_matshape B N n m xw.length mu _
        (fun j hj => mmul_row_length n n xw.length _ _ j hj) hB) H hH
  | ddlms =>
    show MatShape ((ddlmsUp xw cs out mu H n).1) m xw.length
    unfold ddlmsUp
    simp only []
    exact foldl_matshape m xw.length _ (List.range n)
      (fun B N hN hB => updRows_matshape B N n m xw.length mu _
        (fun j hj => mmul_row_length n n xw.length _ _ j hj) hB) H hH
  | rde =>
    show MatShape ((rdeUp xw R2 out mu H n).1) m xw.length
    unfold rdeUp
    simp only []
    exact foldl_matshape m xw.length _ (List.range n)
      (fun B N hN hB => updRows_matshape B N n m xw.length mu _
        (fun j hj => mmul_row_length n n xw.length _ _ j hj) hB) H hH

theorem eqStep_H (x dx : Mat) (SpS : ℕ) (mu : ℚ) (nTaps nModes : ℕ) (sc : Bool)
    (alg : Alg) (Rc : ℚ) (R2 : List ℚ) (cs : Vec) (st : CoreSt) (ind : ℕ) :
    (eqStep x dx SpS mu nTaps nModes sc alg Rc R2 cs st ind).H
    = (algUpdate alg
        ((List.range nTaps).map (fun t => (List.range nModes).map (fun N => mget x (ind*SpS + t) N)))
        (dx.getD ind [])
        ((List.range nModes).foldl (fun acc N =>
          List.zipWith (fun a b => a + b) acc
            ((List.range nModes).map (fun j => rsum nTaps (fun t => mget st.H (j + N*nModes) t
              * mget ((List.range nTaps).map
                (fun t => (List.range nModes).map (fun N => mget x (ind*SpS + t) N))) t N))))
          (List.replicate nModes (0 : Cq)))
        mu st.H nModes Rc R2 cs).1 := rfl

theorem eqStep_H_matshape (x dx : Mat) (SpS : ℕ) (mu : ℚ) (nTaps nModes : ℕ) (sc : Bool)
    (alg : Alg) (Rc : ℚ) (R2 : List ℚ) (cs : Vec) (st : CoreSt) (ind m : ℕ)
    (hH : MatShape st.H m nTaps) :
    MatShape ((eqStep x dx SpS mu nTaps nModes sc alg Rc R2 cs st ind).H) m nTaps := by
  rw [eqStep_H]
  exact algUpdate_matshape alg _ _ _ mu st.H nModes Rc R2 cs m nTaps (by simp) hH

theorem coreRun_H_matshape (x dx : Mat) (SpS : ℕ) (mu : ℚ) (nTaps nModes : ℕ) (sc : Bool)
    (alg : Alg) (cs : Vec) (H : Mat) (L m : ℕ) (hH : MatShape H m nTaps) :
    ∀ k, MatShape ((coreRun x dx SpS mu nTaps nModes sc alg cs H L k).H) m nTaps := by
  intro k
  induction k with
  | zero => exact hH
  | succ k ih =>
    rw [coreRun_succ]
    exact eqStep_H_matshape x dx SpS mu nTaps nModes sc alg _ _ cs _ k m ih

theorem initH_matshape (n τ : ℕ) : MatShape (initH n τ) (n^2) τ := by
  unfold initH
  refine foldl_matshape (n^2) τ _ (List.range n) (fun B b hb hB => ?_) _ ?_
  · rcases Nat.lt_or_ge (b + b*n) (n^2) with hr | hr
    · constructor
      · rw [List.length_set]; exact hB.1
      · intro i hi
        rcases eq_or_ne i (b + b*n) with hib | hib
        · subst hib
          rw [getD_set_self _ _ _ _ (by rw [hB.1]; exact hr)]
          rw [List.length_set]
          exact hB.2 _ hr
        · rw [getD_set_ne _ _ _ _ _ (fun he => hib he.symm)]
          exact hB.2 i hi
    · rw [set_ge _ _ _ (by rw [hB.1]; exact hr)]
      exact hB
  · constructor
    · simp
    · intro i hi
      rw [getD_replicate _ _ _ _ (by simpa using hi)]
      simp

theorem coreAdaptEq_yEq_length (x dx : Mat) (SpS : ℕ) (H : Mat) (L : ℕ) (mu : ℚ)
    (nTaps : ℕ) (sc : Bool) (alg : Alg) (cs : Vec) :
    ((coreAdaptEq x dx SpS H L mu nTaps sc alg cs).1).length = min L x.length := by
  show ((coreRun x dx SpS mu nTaps ((x.headD []).length) sc alg cs H L L).yEq).length = _
  exact coreRun_yEq_length x dx SpS mu nTaps _ sc alg cs H L L

/-- Claim C9: the output stream has exactly L entries (for L at most the
padded input length); the initialized Tap Matrix has shape
(nModes^2, nTaps); and the tap state keeps that shape after every update
step of the adaptation loop. -/
theorem claim_C9 (x dx : Mat) (SpS : ℕ) (H : Mat) (L : ℕ) (mu : ℚ) (nTaps : ℕ)
    (sc : Bool) (alg : Alg) (cs : Vec)
    (hL : L ≤ x.length) (hH : MatShape H (((x.headD []).length)^2) nTaps) :
    ((coreAdaptEq x dx SpS H L mu nTaps sc alg cs).1).length = L
    ∧ MatShape (initH ((x.headD []).length) nTaps) (((x.headD []).length)^2) nTaps
    ∧ ∀ k, MatShape ((coreRun x dx SpS mu nTaps ((x.headD []).length) sc alg cs H L k).H)
        (((x.headD []).length)^2) nTaps := by
  refine ⟨?_, initH_matshape _ _, coreRun_H_matshape x dx SpS mu nTaps _ sc alg cs H L _ hH⟩
  rw [coreAdaptEq_yEq_length]
  omega

/-- Witness for claim C9 on a one-mode one-tap run. -/
theorem claim_C9_witness :
    ((1 : ℕ) ≤ ([[Cq.mk 2 0]] : Mat).length
      ∧ MatShape [[Cq.mk 1 0]] ((([[Cq.mk 2 0]] : Mat).headD []).length^2) 1)
    ∧ (((coreAdaptEq [[Cq.mk 2 0]] [[Cq.mk 2 0]] 1 [[Cq.mk 1 0]] 1 1 1 false Alg.cma
        [Cq.mk 1 0]).1).length = 1
      ∧ MatShape (initH (([[Cq.mk 2 0]] : Mat).headD []).length 1)
          ((([[Cq.mk 2 0]] : Mat).headD []).length^2) 1
      ∧ ∀ k, MatShape ((coreRun [[Cq.mk 2 0]] [[Cq.mk 2 0]] 1 1 1
          (([[Cq.mk 2 0]] : Mat).headD []).length false Alg.cma [Cq.mk 1 0] [[Cq.mk 1 0]] 1 k).H)
          ((([[Cq.mk 2 0]] : Mat).headD []).length^2) 1) := by
  refine ⟨⟨by decide, by decide⟩, ?_⟩
  exact claim_C9 [[Cq.mk 2 0]] [[Cq.mk 2 0]] 1 [[Cq.mk 1 0]] 1 1 1 false Alg.cma [Cq.mk 1 0]
    (by decide) (by decide)

end ShapeLemmas

/-- Claim C3 (code bug): with the storage flag false the loop writes
Hiter[:, :, 1] on a history whose third axis has size 1 - an
out-of-bounds write (unchecked under numba) - so the final Tap Matrix
never lands in the Tap History.  In the concrete run below the returned
history still holds the initial zero slice while the returned Tap Matrix
is [[-11]]. -/
theorem claim_C3_bug :
    (∀ ind L, ¬ (hiterWriteIdx false ind < hiterDepth false L))
    ∧ coreAdaptEq [[Cq.mk 2 0]] [[Cq.mk 2 0]] 1 [[Cq.mk 1 0]] 1 1 1 false Alg.cma [Cq.mk 1 0]
      = ([[Cq.mk 2 0]], [[Cq.mk (-11) 0]], [[9]], [[[0]]])
    ∧ ([[[(0 : Cq)]]] : List Mat) ≠ [[[Cq.mk (-11) 0]]] := by
  refine ⟨fun ind L => ?_, ?_, ?_⟩
  · simp [hiterWriteIdx, hiterDepth]
  · with_unfolding_all decide
  · with_unfolding_all decide

theorem row_lt_sq (n j N : ℕ) (hj : j < n) (hN : N < n) : j + N*n < n^2 := by
  calc j + N*n < n + N*n := by omega
    _ = (N+1)*n := by ring
    _ ≤ n*n := Nat.mul_le_mul_right n (by omega)
    _ = n^2 := by ring

theorem initHAux_ne (n τ : ℕ) :
    ∀ (m : ℕ) (A : Mat) (r : ℕ), (∀ i, i < m → r ≠ i + i*n) →
    ((List.range m).foldl
      (fun A i => A.set (i + i*n) ((A.getD (i + i*n) []).set (τ/2) 1)) A).getD r []
    = A.getD r [] := by
  intro m
  induction m with
  | zero => intro A r _; rfl
  | succ m ih =>
    intro A r hr
    rw [List.range_succ, List.foldl_append, List.foldl_cons, List.foldl_nil]
    rw [getD_set_ne _ _ _ _ _ (fun he => hr m m.lt_succ_self he.symm)]
    exact ih A r (fun i hi => hr i (Nat.lt_succ_of_lt hi))

theorem initHAux_eq (n τ : ℕ) :
    ∀ (m : ℕ) (A : Mat) (i : ℕ), i < m → m ≤ n → i + i*n < A.length →
    ((List.range m).foldl
      (fun A i => A.set (i + i*n) ((A.getD (i + i*n) []).set (τ/2) 1)) A).getD (i + i*n) []
    = (A.getD (i + i*n) []).set (τ/2) 1 := by
  intro m
  induction m with
  | zero => intro A i hi; omega
  | succ m ih =>
    intro A i hi hmn hlen
    rw [List.range_succ, List.foldl_append, List.foldl_cons, List.foldl_nil]
    rcases Nat.lt_or_ge i m with hlt | hge
    · rw [getD_set_ne _ _ _ _ _ (fun he => by
        rcases rowIdx_inj n m i m i (by omega) (by omega) he with ⟨him, _⟩
        omega)]
      exact ih A i hlt (by omega) hlen
    · have him : i = m := by omega
      subst him
      rw [getD_set_self _ _ _ _ (by
        rw [foldl_length_inv _ (fun B b => List.length_set _ _ _)]
        exact hlen)]
      rw [initHAux_ne n τ i A (i + i*n) (fun i' hi' he => by
        rcases rowIdx_inj n i i' i i' (by omega) (by omega) he with ⟨hii, _⟩
        omega)]

/-- Claim C6: the driver's tap initialization places 1 at the center tap
(index nTaps/2) of every mode's self-response row j + j*nModes and 0 at
every other entry (cross-mode rows are all zero). -/
theorem claim_C6 (n τ j N t : ℕ) (hj : j < n) (hN : N < n) (ht : t < τ) :
    mget (initH n τ) (j + N*n) t = if j = N ∧ t = τ/2 then 1 else 0 := by
  unfold initH mget vget
  rcases eq_or_ne j N with hJN | hJN
  · subst hJN
    rw [initHAux_eq n τ n _ j hj (le_refl n) (by
      rw [List.length_replicate]
      exact row_lt_sq n j j hj hj)]
    rw [getD_replicate _ _ _ _ (row_lt_sq n j j hj hj)]
    rcases eq_or_ne t (τ/2) with hT | hT
    · subst hT
      rw [getD_set_self _ _ _ _ (by
        rw [List.length_replicate]
        exact Nat.div_lt_self (by omega) (by omega))]
      rw [if_pos ⟨rfl, rfl⟩]
    · rw [getD_set_ne _ _ _ _ _ (fun he => hT he.symm), getD_replicate _ _ _ _ ht]
      rw [if_neg (fun hc => hT hc.2)]
  · rw [initHAux_ne n τ n _ (j + N*n) (fun i hi he => by
      rcases rowIdx_inj n j i N i hj (by omega) he with ⟨h1, h2⟩
      exact hJN (h1.trans h2.symm))]
    rw [getD_replicate _ _ _ _ (row_lt_sq n j N hj hN), getD_replicate _ _ _ _ ht]
    rw [if_neg (fun hc => hJN hc.1)]

/-- Witness for claim C6 in a two-mode, three-tap configuration. -/
theorem claim_C6_witness :
    ((0 : ℕ) < 2 ∧ (1 : ℕ) < 2 ∧ (2 : ℕ) < 3)
    ∧ mget (initH 2 3) (0 + 1*2) 2 = if (0 : ℕ) = 1 ∧ (2 : ℕ) = 3/2 then 1 else 0 := by
  refine ⟨⟨by decide, by decide, by decide⟩, ?_⟩
  exact claim_C6 2 3 0 1 2 (by decide) (by decide) (by decide)

/-- Claim C8: the driver pads the oriented signal with floor(nTaps/2)
all-zero rows at both ends, and the default output length equals
floor((paddedLength - nTaps)/SpS + 1) (the np.fix in the source agrees
with the floor because the argument is never negative). -/
theorem claim_C8 (x : Mat) (nTaps SpS : ℕ) (hS : 1 ≤ SpS) :
    (padSig (orient x) ((orient x).headD []).length (nTaps / 2)).length
      = (orient x).length + 2*(nTaps / 2)
    ∧ (padSig (orient x) ((orient x).headD []).length (nTaps / 2)).take (nTaps / 2)
      = List.replicate (nTaps / 2) (List.replicate ((orient x).headD []).length 0)
    ∧ ((padSig (orient x) ((orient x).headD []).length (nTaps / 2)).drop (nTaps / 2)).take
        (orient x).length = orient x
    ∧ ((driverLdflt (padSig (orient x) ((orient x).headD []).length (nTaps / 2)).length nTaps SpS : ℤ)
      = ⌊(((padSig (orient x) ((orient x).headD []).length (nTaps / 2)).length : ℚ)
          - (nTaps : ℚ)) / (SpS : ℚ) + 1⌋) := by
  have hlen : (padSig (orient x) ((orient x).headD []).length (nTaps / 2)).length
      = (orient x).length + 2*(nTaps / 2) := by
    unfold padSig
    simp [List.length_append]
    omega
  refine ⟨hlen, ?_, ?_, ?_⟩
  · unfold padSig
    rw [List.append_assoc]
    have h := List.take_left
      (List.replicate (nTaps / 2) (List.replicate ((orient x).headD []).length (0 : Cq)))
      (orient x ++ List.replicate (nTaps / 2) (List.replicate ((orient x).headD []).length (0 : Cq)))
    rw [List.length_replicate] at h
    exact h
  · unfold padSig
    rw [List.append_assoc]
    have hd := List.drop_left
      (List.replicate (nTaps / 2) (List.replicate ((orient x).headD []).length (0 : Cq)))
      (orient x ++ List.replicate (nTaps / 2) (List.replicate ((orient x).headD []).length (0 : Cq)))
    rw [List.length_replicate] at hd
    rw [hd]
    exact List.take_left (orient x) _
  · set pl := (padSig (orient x) ((orient x).headD []).length (nTaps / 2)).length with hpl
    have hnat : nTaps ≤ pl + 1 := by
      rw [hlen]
      omega
    have hS0 : (0 : ℚ) < (SpS : ℚ) := by
      exact_mod_cast Nat.lt_of_lt_of_le Nat.zero_lt_one hS
    have hd1 : (-1 : ℚ) ≤ ((pl : ℚ) - (nTaps : ℚ)) := by
      have : (nTaps : ℚ) ≤ (pl : ℚ) + 1 := by exact_mod_cast hnat
      linarith
    have hdiv : (-1 : ℚ) / (SpS : ℚ) ≤ ((pl : ℚ) - (nTaps : ℚ)) / (SpS : ℚ) :=
      (div_le_div_iff_of_pos_right hS0).mpr hd1
    have hone : (1 : ℚ) / (SpS : ℚ) ≤ 1 := by
      rw [div_le_one hS0]
      exact_mod_cast hS
    have hq0 : (0 : ℚ) ≤ ((pl : ℚ) - (nTaps : ℚ)) / (SpS : ℚ) + 1 := by
      have hneg : (-1 : ℚ) / (SpS : ℚ) = -(1 / (SpS : ℚ)) := by ring
      rw [hneg] at hdiv
      linarith
    unfold driverLdflt fixQ
    rw [if_pos hq0]
    exact Int.toNat_of_nonneg (Int.floor_nonneg.mpr hq0)

/-- Witness for claim C8 at a one-sample signal, nTaps = 3, SpS = 2. -/
theorem claim_C8_witness :
    (1 : ℕ) ≤ 2
    ∧ ((driverLdflt (padSig (orient [[Cq.mk 1 0]])
        ((orient [[Cq.mk 1 0]]).headD []).length (3 / 2)).length 3 2 : ℤ)
      = ⌊(((padSig (orient [[Cq.mk 1 0]])
          ((orient [[Cq.mk 1 0]]).headD []).length (3 / 2)).length : ℚ) - (3 : ℚ)) / (2 : ℚ) + 1⌋) :=
  ⟨by decide, (claim_C8 [[Cq.mk 1 0]] 3 2 (by decide)).2.2.2⟩

/-- Claim C2 (counterexample): a driver call with non-positive mu (= -1)
is not rejected with InvalidConfig: it runs a full CMA pass, updates the
taps (1 becomes 13 under the negative step), and returns the complete
result tuple. -/
theorem claim_C2_counterexample :
    mimoAdaptEqualizer [[Cq.mk 2 0]] []
      { numIter := 1, nTaps := 1, mu := -1, SpS := 1, alg := Alg.cma, constSymb := [Cq.mk 1 0] }
    = ([[Cq.mk 2 0]], [[Cq.mk 13 0]], [[9]], [[[0]]]) := by
  with_unfolding_all decide

/-- Claim C2 (amended): the driver performs no configuration or shape
validation at all - no InvalidConfig or ShapeMismatch failure exists.
Any call (here with non-positive mu, and with an arbitrary reference
stream of any shape) runs the configured passes and returns an
equalized output of the effective length. -/
theorem claim_C2_amended (x dx : Mat) (p : ParamEq) (_hmu : p.mu ≤ 0) (hIter : 1 ≤ p.numIter)
    (hL : driverL x p ≤ (padSig (orient x) ((orient x).headD []).length (p.nTaps / 2)).length) :
    ((mimoAdaptEqualizer x dx p).1).length = driverL x p := by
  obtain ⟨m, hm⟩ : ∃ m, p.numIter = m + 1 := ⟨p.numIter - 1, by omega⟩
  unfold mimoAdaptEqualizer
  simp only []
  rw [hm, List.range_succ, List.foldl_append, List.foldl_cons, List.foldl_nil]
  rw [coreAdaptEq_yEq_length]
  exact Nat.min_eq_left hL

/-- Witness for claim C2 (amended) at the concrete mu = -1 call. -/
theorem claim_C2_witness :
    ((-1 : ℚ) ≤ 0 ∧ (1 : ℕ) ≤ 1
      ∧ driverL [[Cq.mk 2 0]]
          { numIter := 1, nTaps := 1, mu := -1, SpS := 1, alg := Alg.cma, constSymb := [Cq.mk 1 0] }
        ≤ (padSig (orient [[Cq.mk 2 0]]) ((orient [[Cq.mk 2 0]]).headD []).length (1 / 2)).length)
    ∧ ((mimoAdaptEqualizer [[Cq.mk 2 0]] []
        { numIter := 1, nTaps := 1, mu := -1, SpS := 1, alg := Alg.cma, constSymb := [Cq.mk 1 0] }).1).length
      = driverL [[Cq.mk 2 0]]
          { numIter := 1, nTaps := 1, mu := -1, SpS := 1, alg := Alg.cma, constSymb := [Cq.mk 1 0] } := by
  refine ⟨⟨by with_unfolding_all decide, by decide, by with_unfolding_all decide⟩, ?_⟩
  exact claim_C2_amended [[Cq.mk 2 0]] []
    { numIter := 1, nTaps := 1, mu := -1, SpS := 1, alg := Alg.cma, constSymb := [Cq.mk 1 0] }
    (by with_unfolding_all decide) (by decide) (by with_unfolding_all decide)

end Opticomm
